import Mathlib

/-!
Formal model of the clinvara criteria-extraction core.

Shallow embedding of `src/utils/criteria_utils.py` (heuristic extractor) and
`src/utils/criteria_consensus.py` (consensus merger), together with theorems
settling the specification claims about them.

Strings are modelled as `List Char` (Python `str` indexing is by code point,
matching `List Char` indexing).  Python regular expressions used by the code
are fixed literal patterns; each is compiled here by hand into a matching
function, following the backtracking semantics of `re` for that particular
pattern (all the patterns are such that greedy maximal munch is exact, see the
comments at each matcher).
-/

/-- Whitespace as used by Python's `str.strip()` and by `\s` in `re`
(restricted to ASCII, which is all the pipeline's data exercises:
space, tab, newline, carriage return, vertical tab, form feed). -/
def pyWS (c : Char) : Bool :=
  c == ' ' || c == '\t' || c == '\n' || c == '\r' || c == '\x0b' || c == '\x0c'

/-- Python `str.strip()` on a code-point list: drop leading and trailing
whitespace. -/
def stripList (l : List Char) : List Char :=
  ((l.dropWhile pyWS).reverse.dropWhile pyWS).reverse

/-- Python `str.strip()` on strings. -/
def pyStripS (s : String) : String :=
  String.mk (stripList s.data)

/-- Python `re.sub(r'\r\n?', '\n', text)`: every `\r\n` pair and every lone
`\r` becomes a single `\n`. -/
def crlfList : List Char → List Char
  | [] => []
  | c :: cs =>
    if c = '\r' then
      match cs with
      | c2 :: cs2 => if c2 = '\n' then '\n' :: crlfList cs2 else '\n' :: crlfList (c2 :: cs2)
      | [] => ['\n']
    else c :: crlfList cs

/-- Worker for `re.sub(r'\n{3,}', '\n\n', text)`: `k` counts the pending run
of consecutive newlines; each maximal run of `k` newlines is emitted as
`min k 2` newlines (runs of one or two are untouched, longer runs collapse
to exactly two). -/
def collapseGo : Nat → List Char → List Char
  | k, [] => List.replicate (min k 2) '\n'
  | k, c :: cs =>
    if c = '\n' then collapseGo (k + 1) cs
    else List.replicate (min k 2) '\n' ++ c :: collapseGo 0 cs

/-- Python `re.sub(r'\n{3,}', '\n\n', text)`. -/
def collapseNl (l : List Char) : List Char := collapseGo 0 l

/-- The two normalization substitutions performed by
`extract_criteria_from_text` before locating headings
(`criteria_utils.py` lines 91-92). -/
def normalizeText (l : List Char) : List Char := collapseNl (crlfList l)

/-- Python `str.split('\n')`: split at every newline, keeping empty pieces. -/
def splitNl : List Char → List (List Char)
  | [] => [[]]
  | c :: cs =>
    match splitNl cs with
    | [] => [[c]]
    | p :: ps => if c = '\n' then [] :: p :: ps else (c :: p) :: ps

/-- Python `sep.join(pieces)` for a single-character separator. -/
def joinWith (sep : Char) : List (List Char) → List Char
  | [] => []
  | [p] => p
  | p :: q :: ps => p ++ sep :: joinWith sep (q :: ps)

/-- Case-insensitive literal prefix test: the pattern is given lowercased and
is compared against the lowercased text, as `re.I` does for ASCII letters. -/
def leadsWith : List Char → List Char → Bool
  | [], _ => true
  | _ :: _, [] => false
  | p :: ps, c :: cs => (p == Char.toLower c) && leadsWith ps cs

/-- Length of the leading whitespace run (a greedy `\s*` or `\s+`). -/
def wsCount (l : List Char) : Nat := (l.takeWhile pyWS).length

/-!
Model of `difflib.SequenceMatcher(None, a, b).ratio()` as used by `_similar`
in `criteria_consensus.py`.  With `isjunk = None` and strings shorter than
200 characters (the autojunk popularity heuristic requires `len(b) >= 200`),
`ratio` is `2 * M / (len a + len b)` where `M` is the total size of the
matching blocks: recursively take the longest common contiguous block
(longest `k`; among ties the one starting earliest in `a`, then earliest in
`b`) and recurse on the pieces to its left and to its right.  The float
comparison against `0.80` is modelled exactly over `ℚ`; the two orders can
only disagree for strings of length beyond `10 ^ 16`.
-/

/-- Length of the common run at the heads of two lists. -/
def runLen : List Char → List Char → Nat
  | a :: as, b :: bs => if a = b then runLen as bs + 1 else 0
  | _, _ => 0

/-- Longest matching block of two sequences as `(i, j, k)`: maximal `k` with
`a[i:i+k] = b[j:j+k]`, ties broken by least `i`, then least `j` (the
`find_longest_match` contract; every maximal-length start is left-maximal, so
scanning all starts is equivalent). -/
def bestTriple (a b : List Char) : Nat × Nat × Nat :=
  (List.range a.length).foldl
    (fun best i =>
      (List.range b.length).foldl
        (fun best j =>
          let k := runLen (a.drop i) (b.drop j)
          if best.2.2 < k then (i, j, k) else best)
        best)
    (0, 0, 0)

/-- Total size of the matching blocks, fuelled recursion; the fuel
`len a + len b + 1` used below strictly dominates the recursion depth
because each recursive slice removes at least the matched block. -/
def mtotal : Nat → List Char → List Char → Nat
  | 0, _, _ => 0
  | fuel + 1, a, b =>
    let t := bestTriple a b
    if t.2.2 = 0 then 0
    else
      mtotal fuel (a.take t.1) (b.take t.2.1) + t.2.2 +
        mtotal fuel (a.drop (t.1 + t.2.2)) (b.drop (t.2.1 + t.2.2))

/-- Total matched elements of `SequenceMatcher.get_matching_blocks()`. -/
def simMatches (a b : List Char) : Nat := mtotal (a.length + b.length + 1) a b

/-- The `_similar` helper of `criteria_consensus.py`:
`SequenceMatcher(None, a.lower(), b.lower()).ratio()`, i.e. `2M / T` with
`T` the total length, and `1` when both strings are empty (difflib's
`_calculate_ratio`). -/
def _similar (a b : String) : ℚ :=
  let la := a.data.map Char.toLower
  let lb := b.data.map Char.toLower
  if la.length + lb.length = 0 then 1
  else (2 * (simMatches la lb : ℚ)) / ((la.length : ℚ) + (lb.length : ℚ))

/-- The duplicate test `_similar(text, used_text) >= 0.80` of `_merge_lists`
(`0.80 = 4/5`), stated over ℕ so that it evaluates by kernel reduction:
`2M / T ≥ 4/5  ↔  4T ≤ 10M` (also when `T = 0`, where the ratio is 1);
`simGE_iff` below proves the equivalence with the ℚ statement. -/
def simGE (a b : String) : Bool :=
  let la := a.data.map Char.toLower
  let lb := b.data.map Char.toLower
  decide (4 * (la.length + lb.length) ≤ 10 * simMatches la lb)

/-!  Data model: candidate criteria and merged criteria.  -/

/-- A pre-merge candidate: the dicts produced by the extraction strategies
(`{"id": ..., "text": ..., "type": "text"}`); only `text` is read by the
merger. -/
structure Candidate where
  id : String
  text : String
  ctype : String := "text"
deriving DecidableEq

/-- A merged criterion: `{"id", "text", "type", "source", "weight"}` as built
by `_merge_lists`. -/
structure Criterion where
  id : String
  text : String
  ctype : String
  source : String
  weight : Nat
deriving DecidableEq

/-- Internal accumulator entries of `_merge_lists`
(`{"text": ..., "weight": ..., "source": ...}`). -/
structure UsedEntry where
  text : String
  weight : Nat
  source : String
deriving DecidableEq

/-!
Model of `_parse_block` (`criteria_utils.py` lines 13-77).
-/

/-- The bullet glyph class of `bullet_pattern`, `^[\-\*•●▪◦]\s*`. -/
def bulletChar (c : Char) : Bool :=
  c == '-' || c == '*' || c == '•' || c == '●' || c == '▪' || c == '◦'

/-- Anchored match length of `number_pattern`,
`^(\d+[\.\)\:]\s*|\([a-z0-9]+\)\s*|[a-z][\.\)]\s*)` with `re.I` (so the
letter classes take both cases).  Alternatives are tried left to right; in
each, the greedy `\d+`, `[a-z0-9]+` and trailing `\s*` are exact by maximal
munch because the character that must follow each run is outside its class. -/
def numMatchLen (l : List Char) : Option Nat :=
  let ds := l.takeWhile Char.isDigit
  if ds.length > 0 then
    match l.drop ds.length with
    | s :: r => if s == '.' || s == ')' || s == ':' then some (ds.length + 1 + wsCount r) else none
    | [] => none
  else
    match l with
    | c :: r =>
      if c == '(' then
        let an := r.takeWhile (fun ch => ch.isAlpha || ch.isDigit)
        if an.length > 0 then
          match r.drop an.length with
          | c2 :: r2 => if c2 == ')' then some (1 + an.length + 1 + wsCount r2) else none
          | [] => none
        else none
      else if c.isAlpha then
        match r with
        | c2 :: r2 => if c2 == '.' || c2 == ')' then some (2 + wsCount r2) else none
        | [] => none
      else none
    | [] => none

/-- The literal heading labels skipped by `_parse_block` after lowercasing. -/
def headingPhrases : List (List Char) :=
  ["inclusion criteria".data, "exclusion criteria".data, "eligibility criteria".data]

/-- The length filter and heading filter applied to a marker-stripped line:
kept when `len(cleaned) > 5` and `cleaned.lower()` is not a heading label. -/
def checkItem (cleaned : List Char) : Option String :=
  if cleaned.length > 5 then
    if (cleaned.map Char.toLower) ∈ headingPhrases then none
    else some (String.mk cleaned)
  else none

/-- The marker branch of the `_parse_block` loop: a line starting with a
bullet glyph has the glyph and following whitespace removed
(`bullet_pattern.sub('', l).strip()`); otherwise a line matching
`number_pattern` has the match removed (`number_pattern.sub('', l).strip()`);
the result is kept subject to `checkItem`.  Lines with neither marker
contribute nothing: the non-marker branch of the source loop only ever
executes `continue` statements. -/
def lineItem (l : String) : Option String :=
  match l.data with
  | [] => none
  | c :: cs =>
    if bulletChar c then checkItem (stripList (cs.dropWhile pyWS))
    else
      match numMatchLen (c :: cs) with
      | some k => checkItem (stripList ((c :: cs).drop k))
      | none => none

/-- All candidates collected by the marker loop of `_parse_block`. -/
def markerItems (lines : List String) : List String := lines.filterMap lineItem

/-- True when the previous character is sentence-terminal punctuation, the
lookbehind `(?<=[\.!\?])` of the sentence-splitting fallback. -/
def termB : Option Char → Bool
  | some c => c == '.' || c == '!' || c == '?'
  | none => false

/-- Python `re.split(r'(?<=[\.!\?])\s+', para)`: walk the paragraph, cutting
at each whitespace run preceded by terminal punctuation and consuming the
whole (greedy) run.  `prev` is the previous character, `inSep` is true while
consuming a separator run, `cur` holds the current piece reversed. -/
def sentGo : Option Char → Bool → List Char → List Char → List (List Char)
  | _, _, cur, [] => [cur.reverse]
  | prev, inSep, cur, c :: cs =>
    if inSep then
      if pyWS c then sentGo prev true cur cs
      else sentGo (some c) false [c] cs
    else if termB prev && pyWS c then cur.reverse :: sentGo none true [] cs
    else sentGo (some c) false (c :: cur) cs

/-- The sentence-splitting fallback of `_parse_block`: join the lines with
spaces, split on sentence-terminal punctuation followed by whitespace, strip
each piece and keep those longer than 15 characters. -/
def sentenceItems (lines : List String) : List String :=
  let para := joinWith ' ' (lines.map String.data)
  (((sentGo none false [] para).map stripList).filter (fun s => s.length > 15)).map String.mk

/-- The non-empty stripped lines of a block
(`[l.strip() for l in block.split('\n') if l.strip()]`, after the block's
own `re.sub(r'\r\n?', '\n', block)`). -/
def blockLines (block : String) : List String :=
  (((splitNl (crlfList block.data)).map stripList).filter (fun l => decide (l ≠ []))).map String.mk

/-- The output construction of `_parse_block`: item `i` (1-based) becomes
`{"id": f"{prefix}{i}", "text": t, "type": "text"}`. -/
def mkCands (pre : String) : Nat → List String → List Candidate
  | _, [] => []
  | i, t :: ts => ⟨pre ++ toString i, t, "text"⟩ :: mkCands pre (i + 1) ts

/-- `_parse_block(block, prefix)` of `criteria_utils.py`: empty or
whitespace-only blocks give `[]`; otherwise collect marker-line candidates,
falling back to sentence splitting when there are none, and number the
results. -/
def _parse_block (block : String) (pre : String) : List Candidate :=
  if stripList block.data = [] then []
  else
    let lines := blockLines block
    let items := markerItems lines
    let items2 := if items = [] then sentenceItems lines else items
    mkCands pre 1 items2

/-!
Model of the section-locating part of `extract_criteria_from_text`
(`criteria_utils.py` lines 94-184).
-/

/-- Python `text[a:b]` on code-point lists. -/
def pySlice (l : List Char) (a b : Nat) : List Char := (l.drop a).take (b - a)

/-- The helper `find_line_start(text, pos)`: start of the line containing
`pos`, i.e. one past the last newline before `pos`, else 0. -/
def lineStart (l : List Char) (pos : Nat) : Nat :=
  pos - ((l.take pos).reverse.takeWhile (fun c => c != '\n')).length

/-- The helper `find_line_end(text, pos)`: index of the first newline at or
after `pos`, else the length of the text. -/
def lineEnd (l : List Char) (pos : Nat) : Nat :=
  pos + ((l.drop pos).takeWhile (fun c => c != '\n')).length

/-- Generic model of `re.search` for an anchored matcher returning a match
length: scan positions left to right, returning the first `(start, end)`.
None of the patterns fed to it can match the empty suffix, so scanning
proper positions suffices. -/
def searchPos (f : List Char → Option Nat) : List Char → Option (Nat × Nat)
  | [] => none
  | c :: cs =>
    match f (c :: cs) with
    | some k => some (0, k)
    | none => (searchPos f cs).map (fun se => (se.1 + 1, se.2 + 1))

/-- Model of `re.search` when only the match start is needed (the section
patterns, used via `m.start()`): first position where the matcher accepts. -/
def searchStart (f : List Char → Bool) : List Char → Option Nat
  | [] => none
  | c :: cs => if f (c :: cs) then some 0 else (searchStart f cs).map (· + 1)

/-- The common tail `\s+criteria` of the heading patterns, matched
case-insensitively after `base` already-consumed characters; the greedy
`\s+` is exact because `c` is not whitespace. -/
def afterWsCriteria (l : List Char) (base : Nat) : Option Nat :=
  let w := wsCount l
  if w = 0 then none
  else if leadsWith "criteria".data (l.drop w) then some (base + w + 8) else none

/-- Anchored match for `r'inclusion\s+criteria'` with `re.I`. -/
def incHeadMatch (l : List Char) : Option Nat :=
  if leadsWith "inclusion".data l then afterWsCriteria (l.drop 9) 9 else none

/-- Anchored match for `r'exclusion\s+criteria'` with `re.I`. -/
def excHeadMatch (l : List Char) : Option Nat :=
  if leadsWith "exclusion".data l then afterWsCriteria (l.drop 9) 9 else none

/-- Anchored match for `r'eligib(?:ility|le)\s+criteria'` with `re.I`; the
alternation tries `ility` first and falls back to `le` if the remainder of
the pattern then fails, as the backtracking engine does. -/
def eligHeadMatch (l : List Char) : Option Nat :=
  if leadsWith "eligib".data l then
    let r := l.drop 6
    match (if leadsWith "ility".data r then afterWsCriteria (r.drop 5) 11 else none) with
    | some k => some k
    | none => if leadsWith "le".data r then afterWsCriteria (r.drop 2) 8 else none
  else none

/-- Anchored match for the plain `r'exclusion'` search (`re.I`) used inside
the combined-eligibility branch. -/
def exclWordMatch (l : List Char) : Option Nat :=
  if leadsWith "exclusion".data l then some 9 else none

/-- `re.search(r'inclusion\s+criteria', text, re.I)` as `(start, end)`. -/
def searchInc (t : List Char) : Option (Nat × Nat) := searchPos incHeadMatch t

/-- `re.search(r'exclusion\s+criteria', text, re.I)` as `(start, end)`. -/
def searchExc (t : List Char) : Option (Nat × Nat) := searchPos excHeadMatch t

/-- `re.search(r'eligib(?:ility|le)\s+criteria', text, re.I)`. -/
def searchElig (t : List Char) : Option (Nat × Nat) := searchPos eligHeadMatch t

/-- `re.search(r'exclusion', content, re.I)`. -/
def searchExclWord (t : List Char) : Option (Nat × Nat) := searchPos exclWordMatch t

/-- Match `[A-Z][a-z]+` at the head, returning the rest (no flags: case
sensitive ASCII classes). -/
def upLowWord : List Char → Option (List Char)
  | [] => none
  | u :: r =>
    if u.isUpper then
      let low := r.takeWhile Char.isLower
      if low.length > 0 then some (r.drop low.length) else none
    else none

/-- Anchored match for the first section pattern
`r'\n\s*\d+[\.\)]\s+[A-Z][a-z]+\s+[A-Z][a-z]+'` (no flags, so the classes
are case sensitive).  Every greedy run here is followed by a character
outside its class, so maximal munch is exact. -/
def p1Match : List Char → Bool
  | [] => false
  | c :: rest =>
    if c == '\n' then
      let r1 := rest.dropWhile pyWS
      let ds := r1.takeWhile Char.isDigit
      if ds.length = 0 then false
      else
        match r1.drop ds.length with
        | [] => false
        | s :: r3 =>
          if s == '.' || s == ')' then
            let w := wsCount r3
            if w = 0 then false
            else
              match upLowWord (r3.drop w) with
              | none => false
              | some r6 =>
                let w2 := wsCount r6
                if w2 = 0 then false
                else (upLowWord (r6.drop w2)).isSome
          else false
    else false

/-- Anchored match for the second section pattern
`r'\n\s*[A-Z][A-Z\s]{8,}\n'`.  After the greedy `\s*` and the first capital,
let `run` be the maximal run of `[A-Z\s]` characters; the engine backtracks
the greedy `{8,}` until the character after the block is a newline, which is
possible exactly when a newline occurs in `run` at an index of at least 8. -/
def p2Match : List Char → Bool
  | [] => false
  | c :: rest =>
    if c == '\n' then
      match rest.dropWhile pyWS with
      | [] => false
      | u :: r2 =>
        u.isUpper && ((r2.takeWhile (fun ch => ch.isUpper || pyWS ch)).drop 8).contains '\n'
    else false

/-- One step of the section-trimming loop: truncate the block at the first
match of the pattern (if any) and strip
(`block = block[:m.start()].strip()`). -/
def trimAt (f : List Char → Bool) (blk : List Char) : List Char :=
  match searchStart f blk with
  | some s => stripList (blk.take s)
  | none => blk

/-- The heading-based block location of `extract_criteria_from_text`
(lines 94-162 of `criteria_utils.py`), yielding `(inc_block, exc_block)`
from the normalized text: with both headings present each block is bounded
by the other heading's line and then trimmed at the two generic section
patterns in order; a single heading takes everything after its line to the
end of the text, with no trimming; with neither, a combined eligibility
heading takes its trailing content, split at the line of the first
occurrence of the word `exclusion` if there is one. -/
def locateBlocks (t : List Char) : List Char × List Char :=
  match searchInc t, searchExc t with
  | some ie, some ee =>
    let incLineStart := lineStart t ie.1
    let incLineEnd := lineEnd t ie.2
    let excLineStart := lineStart t ee.1
    let excLineEnd := lineEnd t ee.2
    let ib0 :=
      if ie.1 < ee.1 then stripList (pySlice t incLineEnd excLineStart)
      else stripList (t.drop incLineEnd)
    let eb0 :=
      if ie.1 < ee.1 then stripList (t.drop excLineEnd)
      else stripList (pySlice t excLineEnd incLineStart)
    let ib1 := trimAt p1Match ib0
    let eb1 := trimAt p1Match eb0
    (trimAt p2Match ib1, trimAt p2Match eb1)
  | some ie, none => (stripList (t.drop (lineEnd t ie.2)), [])
  | none, some ee => ([], stripList (t.drop (lineEnd t ee.2)))
  | none, none =>
    match searchElig t with
    | some ge =>
      let content := stripList (t.drop (lineEnd t ge.2))
      match searchExclWord content with
      | some pe =>
        let cut := lineStart content pe.1
        (stripList (content.take cut), stripList (content.drop cut))
      | none => (content, [])
    | none => ([], [])

/-!
Model of the last-ditch fallback of `extract_criteria_from_text`
(lines 170-184): the pattern
`((?:^|\n)\s*(?:\d+[\.\)]|[\-\*•]).*(?:age|...|years?).*(?:\n\s*(?:\d+[\.\)]|[\-\*•]).*){2,})`
is searched with `re.I | re.S`.  Under `re.S` the dots cross newlines, so a
match at start `s` consumes the whole rest of the text (the final greedy
`.*` has nothing after it); the match exists at `s` iff after `(?:^|\n)`,
greedy whitespace and a list marker, some eligibility keyword occurs later,
followed somewhere by two chained `\n\s*marker` occurrences.  `^` only
matches at position 0 (no `re.M`).
-/

/-- Anchored match length for the marker alternation `(?:\d+[\.\)]|[\-\*•])`. -/
def fbMarker (l : List Char) : Option Nat :=
  let ds := l.takeWhile Char.isDigit
  if ds.length > 0 then
    match l.drop ds.length with
    | s :: _ => if s == '.' || s == ')' then some (ds.length + 1) else none
    | [] => none
  else
    match l with
    | c :: _ => if c == '-' || c == '*' || c == '•' then some 1 else none
    | [] => none

/-- Anchored match length for `\n\s*(?:\d+[\.\)]|[\-\*•])`. -/
def nlMarkerLen : List Char → Option Nat
  | [] => none
  | c :: rest =>
    if c = '\n' then
      let w := wsCount rest
      (fbMarker (rest.drop w)).map (fun m => 1 + w + m)
    else none

/-- Does `f` accept some suffix of the list (the effect of a preceding
greedy-with-backtracking `.*` under `re.S`)? -/
def anySuffixB (f : List Char → Bool) : List Char → Bool
  | [] => f []
  | c :: cs => f (c :: cs) || anySuffixB f cs

/-- Two chained `\n\s*marker` occurrences somewhere in the list, the second
strictly after the first one's marker (the `{2,}` repetition). -/
def chain2 (l : List Char) : Bool :=
  anySuffixB
    (fun s =>
      match nlMarkerLen s with
      | some m => anySuffixB (fun s2 => (nlMarkerLen s2).isSome) (s.drop m)
      | none => false)
    l

/-- The eligibility-domain keyword alternation, lowercased; `years?` is
represented by `year`, which matches exactly when `year` or `years` does
and only weakens the later-context requirement, which the surrounding `.*`
absorbs. -/
def fbKeywords : List (List Char) :=
  ["age".data, "patient".data, "subject".data, "diagnos".data, "disease".data,
   "treatment".data, "pregnan".data, "exclude".data, "include".data, "eligible".data,
   "history".data, "year".data]

/-- A keyword matches here (case-insensitively) and the two chained marker
lines occur after it. -/
def kwChain (s : List Char) : Bool :=
  fbKeywords.any (fun kw => leadsWith kw s && chain2 (s.drop kw.length))

/-- The condition after `(?:^|\n)`: greedy `\s*`, a marker, then somewhere a
keyword with the chained marker lines after it. -/
def fbCondAt (r : List Char) : Bool :=
  let r1 := r.dropWhile pyWS
  match fbMarker r1 with
  | some m => anySuffixB kwChain (r1.drop m)
  | none => false

/-- Scan for the leftmost start of the fallback pattern: at position 0 the
`^` branch applies, at any position a literal newline may begin the match. -/
def fbScanAux : List Char → Nat → Option Nat
  | [], _ => none
  | c :: cs, i =>
    if (i == 0 && fbCondAt (c :: cs)) || (c == '\n' && fbCondAt cs) then some i
    else fbScanAux cs (i + 1)

/-- `re.search` of the fallback pattern: the start of the match; a match
always extends to the end of the text (see the section comment). -/
def fbScan (t : List Char) : Option Nat := fbScanAux t 0

/-- `extract_criteria_from_text(text)` of `criteria_utils.py`: empty or
whitespace-only text gives `([], [])`; otherwise normalize, locate the
inclusion/exclusion blocks, parse each, and if both parses are empty run the
fallback scan, halving its matched lines between the two types. -/
def extract_criteria_from_text (text : String) : List Candidate × List Candidate :=
  if stripList text.data = [] then ([], [])
  else
    let t := normalizeText text.data
    let bl := locateBlocks t
    let inclusion := _parse_block (String.mk bl.1) "INC"
    let exclusion := _parse_block (String.mk bl.2) "EXC"
    if inclusion = [] ∧ exclusion = [] then
      match fbScan t with
      | some s =>
        let ft := t.drop s
        let lines := ((splitNl ft).map stripList).filter (fun l => decide (l ≠ []))
        let mid := lines.length / 2
        let ib := if mid > 0 then joinWith '\n' (lines.take mid) else joinWith '\n' lines
        let eb := if mid > 0 then joinWith '\n' (lines.drop mid) else []
        (_parse_block (String.mk ib) "INC", _parse_block (String.mk eb) "EXC")
      | none => ([], [])
    else (inclusion, exclusion)

/-!
Model of `_merge_lists` (`criteria_consensus.py` lines 28-76).
-/

/-- The dedup loop body for one source list: strip each item's text, skip
empty texts, skip texts whose similarity with some already-accepted text is
at least `0.80`, and append accepted entries with the source's weight. -/
def dedupInto (w : Nat) (src : String) : List Candidate → List UsedEntry → List UsedEntry
  | [], used => used
  | it :: rest, used =>
    let t := pyStripS it.text
    if t = "" then dedupInto w src rest used
    else if used.any (fun u => simGE t u.text) then dedupInto w src rest used
    else dedupInto w src rest (used ++ [⟨t, w, src⟩])

/-- Stable insertion for the weight-descending sort: an element goes before
the first strictly lighter element, after all earlier equal-weight ones. -/
def insertWD (e : UsedEntry) : List UsedEntry → List UsedEntry
  | [] => [e]
  | x :: xs => if x.weight ≤ e.weight then e :: x :: xs else x :: insertWD e xs

/-- `used.sort(key=lambda x: x["weight"], reverse=True)`: Python's sort is
stable, and every stable sort by descending weight produces the same list,
here realised by stable insertion sort. -/
def sortWD : List UsedEntry → List UsedEntry
  | [] => []
  | x :: xs => insertWD x (sortWD xs)

/-- The final numbering loop of `_merge_lists`: entry `i` (1-based) becomes
`{"id": f"{prefix}{i}", "text", "type": "text", "source", "weight"}`. -/
def finalizeList (pre : String) : Nat → List UsedEntry → List Criterion
  | _, [] => []
  | i, e :: es => ⟨pre ++ toString i, e.text, "text", e.source, e.weight⟩ :: finalizeList pre (i + 1) es

/-- `_merge_lists(heuristic, ocr, llm, prefix)` of `criteria_consensus.py`:
process the sources in the fixed order llm (weight 3), ocr (weight 2),
heuristic (weight 1) through the dedup loop, sort by weight descending
(stable), and renumber. -/
def _merge_lists (heuristic ocr llm : List Candidate) (pre : String) : List Criterion :=
  finalizeList pre 1
    (sortWD (dedupInto 1 "heuristic" heuristic (dedupInto 2 "ocr" ocr (dedupInto 3 "llm" llm []))))

/-!
The orchestrator `extract_all_criteria(text, pdf_path)` of
`criteria_consensus.py` cannot run as written: line 5 is
`from .criteria_utils import extract_criteria_heuristic`, and
`criteria_utils.py` defines no attribute of that name (its module-level
names are listed below), so importing the module raises `ImportError`
before `extract_all_criteria` can ever be called.  The definition below
models the function under the evident intent that the import refer to
`extract_criteria_from_text`, the only heuristic extractor in
`criteria_utils.py`; the OCR text (read from `pdf_path`, empty when the
path does not resolve, per `extract_text_via_ocr`) and the LLM result
(empty for empty input per `extract_criteria_via_llm` lines 72-74, an
external call otherwise) enter as parameters standing for the external
boundaries. -/
def extract_all_criteria_intended (text ocrText : String) (llmInc llmExc : List Candidate) :
    List Criterion × List Criterion :=
  let heu := extract_criteria_from_text text
  let ocr := if ocrText = "" then ([], []) else extract_criteria_from_text ocrText
  let llm := if stripList text.data = [] then ([], []) else (llmInc, llmExc)
  (_merge_lists heu.1 ocr.1 llm.1 "INC", _merge_lists heu.2 ocr.2 llm.2 "EXC")

/-- The module-level attribute names defined by `src/utils/criteria_utils.py`
(its imports, logger and functions, in order of definition). -/
def criteriaUtilsModuleAttrs : List String :=
  ["re", "logging", "List", "Tuple", "logger",
   "_clean_line", "_parse_block", "extract_criteria_from_text", "extract_criteria"]

/-- The name `criteria_consensus.py` line 5 imports from `criteria_utils`. -/
def consensusImportedName : String := "extract_criteria_heuristic"

/-- Sequential naturals `s, s+1, ..., s+n-1`, used to state the dense-id
invariant. -/
def natsFrom : Nat → Nat → List Nat
  | _, 0 => []
  | s, n + 1 => s :: natsFrom (s + 1) n

/-- Detector for three consecutive newlines: `k` counts the current run. -/
def has3runAux : Nat → List Char → Bool
  | _, [] => false
  | k, c :: cs => if c = '\n' then (if 3 ≤ k + 1 then true else has3runAux (k + 1) cs) else has3runAux 0 cs

/-- Does the list contain three consecutive newlines (a `\n{3,}` match)? -/
def has3run (l : List Char) : Bool := has3runAux 0 l

/-!
Helper lemmas.
-/

/-- Rebuilding a string from its code points is the identity. -/
theorem mkData : ∀ s : String, String.mk s.data = s := fun ⟨_⟩ => rfl

/-- The ℕ-level duplicate test agrees with the ℚ-level ratio threshold. -/
theorem simGE_iff (a b : String) : simGE a b = true ↔ (4 : ℚ) / 5 ≤ _similar a b := by
  unfold simGE _similar
  by_cases h : (a.data.map Char.toLower).length + (b.data.map Char.toLower).length = 0
  · rw [if_pos h]
    have h1 : a.data.map Char.toLower = [] :=
      List.length_eq_zero.mp (Nat.eq_zero_of_add_eq_zero_right h)
    have h2 : b.data.map Char.toLower = [] :=
      List.length_eq_zero.mp (Nat.eq_zero_of_add_eq_zero_left h)
    rw [h1, h2]
    norm_num
  · rw [if_neg h, decide_eq_true_eq]
    have hT : (0 : ℚ) < ((a.data.map Char.toLower).length : ℚ) + ((b.data.map Char.toLower).length : ℚ) := by
      have hp : 0 < (a.data.map Char.toLower).length + (b.data.map Char.toLower).length :=
        Nat.pos_of_ne_zero h
      exact_mod_cast hp
    rw [div_le_div_iff₀ (by norm_num) hT]
    rw [show (2 : ℚ) * (simMatches (a.data.map Char.toLower) (b.data.map Char.toLower) : ℚ) * 5 =
        ((10 * simMatches (a.data.map Char.toLower) (b.data.map Char.toLower) : ℕ) : ℚ) by push_cast; ring]
    rw [show (4 : ℚ) * (((a.data.map Char.toLower).length : ℚ) + ((b.data.map Char.toLower).length : ℚ)) =
        ((4 * ((a.data.map Char.toLower).length + (b.data.map Char.toLower).length) : ℕ) : ℚ) by push_cast; ring]
    exact Iff.symm Nat.cast_le

/-- Contrapositive form of `simGE_iff`. -/
theorem simGE_false_iff (a b : String) : simGE a b = false ↔ _similar a b < (4 : ℚ) / 5 := by
  rw [← not_le, ← simGE_iff a b]
  cases hg : simGE a b <;> simp

/-- The head of a non-empty `dropWhile` result falsifies the predicate. -/
theorem dropWhile_head_false (p : Char → Bool) :
    ∀ (l : List Char) (c : Char) (t : List Char), l.dropWhile p = c :: t → p c = false := by
  intro l
  induction l with
  | nil => intro c t h; simp [List.dropWhile] at h
  | cons a as ih =>
    intro c t h
    rw [List.dropWhile_cons] at h
    by_cases hpa : p a = true
    · rw [if_pos hpa] at h
      exact ih c t h
    · rw [if_neg hpa] at h
      have hac := ((List.cons.injEq a as c t).mp h).1
      rw [← hac]
      simpa using hpa

/-- A non-empty stripped list contains a non-whitespace character. -/
theorem stripList_exists_nonws (l : List Char) (h : stripList l ≠ []) :
    ∃ c ∈ stripList l, pyWS c = false := by
  rcases hB : (l.dropWhile pyWS).reverse.dropWhile pyWS with _ | ⟨c, t⟩
  · exfalso
    apply h
    unfold stripList
    rw [hB]
    rfl
  · refine ⟨c, ?_, dropWhile_head_false pyWS _ c t hB⟩
    unfold stripList
    rw [hB]
    simp

/-- `mkCands` copies the item texts verbatim, in order. -/
theorem mkCands_map_text (pre : String) :
    ∀ (i : Nat) (items : List String), (mkCands pre i items).map (·.text) = items := by
  intro i items
  induction items generalizing i with
  | nil => rfl
  | cons t ts ih => simp [mkCands, ih]

/-- Every output of `finalizeList` copies text, source and weight from some
input entry. -/
theorem finalizeList_mem (pre : String) :
    ∀ (i : Nat) (l : List UsedEntry) (x : Criterion), x ∈ finalizeList pre i l →
      ∃ u ∈ l, x.text = u.text ∧ x.source = u.source ∧ x.weight = u.weight := by
  intro i l
  induction l generalizing i with
  | nil => intro x hx; simp [finalizeList] at hx
  | cons e es ih =>
    intro x hx
    rw [finalizeList] at hx
    rcases List.mem_cons.mp hx with h | h
    · exact ⟨e, List.mem_cons_self e es, by rw [h], by rw [h], by rw [h]⟩
    · obtain ⟨u, hu, hprops⟩ := ih (i + 1) x h
      exact ⟨u, List.mem_cons_of_mem e hu, hprops⟩

/-- `finalizeList` preserves length. -/
theorem finalizeList_length (pre : String) :
    ∀ (i : Nat) (l : List UsedEntry), (finalizeList pre i l).length = l.length := by
  intro i l
  induction l generalizing i with
  | nil => rfl
  | cons e es ih => simp [finalizeList, ih]

/-- The ids produced by `finalizeList` are the consecutive numbers from `i`. -/
theorem finalizeList_map_id (pre : String) :
    ∀ (i : Nat) (l : List UsedEntry),
      (finalizeList pre i l).map (·.id) = (natsFrom i l.length).map (fun n => pre ++ toString n) := by
  intro i l
  induction l generalizing i with
  | nil => rfl
  | cons e es ih => simp [finalizeList, natsFrom, ih]

/-- `finalizeList` transports the pairwise dissimilarity of the entries to
the produced criteria. -/
theorem finalizeList_pairwise (pre : String) :
    ∀ (i : Nat) (l : List UsedEntry),
      List.Pairwise (fun a b : UsedEntry => simGE b.text a.text = false) l →
      List.Pairwise (fun x y : Criterion => simGE y.text x.text = false) (finalizeList pre i l) := by
  intro i l
  induction l generalizing i with
  | nil => intro _; exact List.Pairwise.nil
  | cons e es ih =>
    intro hp
    rw [finalizeList]
    rw [List.pairwise_cons] at hp ⊢
    refine ⟨?_, ih (i + 1) hp.2⟩
    intro y hy
    obtain ⟨u, hu, hty, _, _⟩ := finalizeList_mem pre (i + 1) es y hy
    rw [hty]
    exact hp.1 u hu

/-- A list already sorted by weight descending is fixed by `sortWD`. -/
theorem sortWD_eq_self :
    ∀ l : List UsedEntry, List.Pairwise (fun a b : UsedEntry => b.weight ≤ a.weight) l →
      sortWD l = l := by
  intro l
  induction l with
  | nil => intro _; rfl
  | cons x xs ih =>
    intro hp
    rw [List.pairwise_cons] at hp
    rw [sortWD, ih hp.2]
    cases xs with
    | nil => rfl
    | cons y ys => rw [insertWD, if_pos (hp.1 y (List.mem_cons_self y ys))]

/-- Decomposition of one dedup pass: the accumulator is extended on the
right by entries that carry the pass's source and weight, are stripped texts
of input items, are non-empty, and were each checked dissimilar against the
whole incoming accumulator; the new entries are also pairwise dissimilar. -/
theorem dedupInto_decomp (w : Nat) (src : String) :
    ∀ (items : List Candidate) (used : List UsedEntry),
      ∃ rest, dedupInto w src items used = used ++ rest ∧
        (∀ r ∈ rest, r.source = src ∧ r.weight = w ∧
          (∃ c ∈ items, r.text = pyStripS c.text) ∧ r.text ≠ "" ∧
          ∀ u ∈ used, simGE r.text u.text = false) ∧
        List.Pairwise (fun a b : UsedEntry => simGE b.text a.text = false) rest := by
  intro items
  induction items with
  | nil =>
    intro used
    exact ⟨[], by simp [dedupInto], by simp, List.Pairwise.nil⟩
  | cons it its ih =>
    intro used
    by_cases h1 : pyStripS it.text = ""
    · obtain ⟨rest, heq, hp, hpw⟩ := ih used
      refine ⟨rest, ?_, ?_, hpw⟩
      · rw [dedupInto, if_pos h1]
        exact heq
      · intro r hr
        obtain ⟨hs, hw, ⟨c, hc, hct⟩, hne, hchk⟩ := hp r hr
        exact ⟨hs, hw, ⟨c, List.mem_cons_of_mem it hc, hct⟩, hne, hchk⟩
    · by_cases h2 : used.any (fun u => simGE (pyStripS it.text) u.text) = true
      · obtain ⟨rest, heq, hp, hpw⟩ := ih used
        refine ⟨rest, ?_, ?_, hpw⟩
        · rw [dedupInto, if_neg h1, if_pos h2]
          exact heq
        · intro r hr
          obtain ⟨hs, hw, ⟨c, hc, hct⟩, hne, hchk⟩ := hp r hr
          exact ⟨hs, hw, ⟨c, List.mem_cons_of_mem it hc, hct⟩, hne, hchk⟩
      · have hchk0 : ∀ u ∈ used, simGE (pyStripS it.text) u.text = false := by
          intro u hu
          rcases hb : simGE (pyStripS it.text) u.text with _ | _
          · rfl
          · exact absurd (List.any_eq_true.mpr ⟨u, hu, hb⟩) h2
        obtain ⟨rest2, heq, hp, hpw⟩ := ih (used ++ [⟨pyStripS it.text, w, src⟩])
        refine ⟨⟨pyStripS it.text, w, src⟩ :: rest2, ?_, ?_, ?_⟩
        · rw [dedupInto, if_neg h1, if_neg h2, heq]
          simp
        · intro r hr
          rcases List.mem_cons.mp hr with hr | hr
          · subst hr
            exact ⟨rfl, rfl, ⟨it, List.mem_cons_self it its, rfl⟩, h1, hchk0⟩
          · obtain ⟨hs, hw, ⟨c, hc, hct⟩, hne, hchk⟩ := hp r hr
            refine ⟨hs, hw, ⟨c, List.mem_cons_of_mem it hc, hct⟩, hne, ?_⟩
            intro u hu
            exact hchk u (List.mem_append_left _ hu)
        · rw [List.pairwise_cons]
          refine ⟨?_, hpw⟩
          intro r hr
          obtain ⟨_, _, _, _, hchk⟩ := hp r hr
          exact hchk ⟨pyStripS it.text, w, src⟩ (List.mem_append_right _ (List.mem_singleton.mpr rfl))

/-- Decomposition of the full three-pass accumulator of `_merge_lists`:
llm entries first, then ocr, then heuristic, each later entry checked
dissimilar against everything before it. -/
theorem mergeUsed_decomp (h o l : List Candidate) :
    ∃ r3 r2 r1,
      dedupInto 1 "heuristic" h (dedupInto 2 "ocr" o (dedupInto 3 "llm" l [])) = (r3 ++ r2) ++ r1 ∧
      (∀ r ∈ r3, r.source = "llm" ∧ r.weight = 3 ∧
        (∃ c ∈ l, r.text = pyStripS c.text) ∧ r.text ≠ "") ∧
      (∀ r ∈ r2, r.source = "ocr" ∧ r.weight = 2 ∧
        (∃ c ∈ o, r.text = pyStripS c.text) ∧ r.text ≠ "" ∧
        ∀ u ∈ r3, simGE r.text u.text = false) ∧
      (∀ r ∈ r1, r.source = "heuristic" ∧ r.weight = 1 ∧
        (∃ c ∈ h, r.text = pyStripS c.text) ∧ r.text ≠ "" ∧
        ∀ u ∈ r3 ++ r2, simGE r.text u.text = false) ∧
      List.Pairwise (fun a b : UsedEntry => simGE b.text a.text = false) ((r3 ++ r2) ++ r1) := by
  obtain ⟨r3, heq3, hp3, hpw3⟩ := dedupInto_decomp 3 "llm" l []
  obtain ⟨r2, heq2, hp2, hpw2⟩ := dedupInto_decomp 2 "ocr" o (dedupInto 3 "llm" l [])
  obtain ⟨r1, heq1, hp1, hpw1⟩ := dedupInto_decomp 1 "heuristic" h
    (dedupInto 2 "ocr" o (dedupInto 3 "llm" l []))
  have e3 : dedupInto 3 "llm" l [] = r3 := by simpa using heq3
  have e2 : dedupInto 2 "ocr" o (dedupInto 3 "llm" l []) = r3 ++ r2 := by
    rw [heq2, e3]
  have e1 : dedupInto 1 "heuristic" h (dedupInto 2 "ocr" o (dedupInto 3 "llm" l [])) =
      (r3 ++ r2) ++ r1 := by
    rw [heq1, e2]
  refine ⟨r3, r2, r1, e1, ?_, ?_, ?_, ?_⟩
  · intro r hr
    obtain ⟨hs, hw, hex, hne, _⟩ := hp3 r hr
    exact ⟨hs, hw, hex, hne⟩
  · intro r hr
    obtain ⟨hs, hw, hex, hne, hchk⟩ := hp2 r hr
    refine ⟨hs, hw, hex, hne, ?_⟩
    intro u hu
    exact hchk u (by rw [e3]; exact hu)
  · intro r hr
    obtain ⟨hs, hw, hex, hne, hchk⟩ := hp1 r hr
    refine ⟨hs, hw, hex, hne, ?_⟩
    intro u hu
    exact hchk u (by rw [e2]; exact hu)
  · rw [List.pairwise_append]
    refine ⟨?_, hpw1, ?_⟩
    · rw [List.pairwise_append]
      refine ⟨hpw3, hpw2, ?_⟩
      intro a ha b hb
      exact (hp2 b hb).2.2.2.2 a (by rw [e3]; exact ha)
    · intro a ha b hb
      exact (hp1 b hb).2.2.2.2 a (by rw [e2]; exact ha)

/-- The stable sort inside `_merge_lists` is the identity on the three-pass
accumulator, which is already in weight-descending order; hence the merger
is `finalizeList` of the accumulator. -/
theorem merge_eq_finalize (h o l : List Candidate) (p : String) :
    _merge_lists h o l p =
      finalizeList p 1 (dedupInto 1 "heuristic" h (dedupInto 2 "ocr" o (dedupInto 3 "llm" l []))) := by
  unfold _merge_lists
  obtain ⟨r3, r2, r1, e1, hp3, hp2, hp1, _⟩ := mergeUsed_decomp h o l
  rw [e1, sortWD_eq_self]
  rw [List.pairwise_append]
  refine ⟨?_, ?_, ?_⟩
  · rw [List.pairwise_append]
    refine ⟨?_, ?_, ?_⟩
    · apply List.pairwise_of_forall_mem_list
      intro a ha b hb
      rw [(hp3 a ha).2.1, (hp3 b hb).2.1]
    · apply List.pairwise_of_forall_mem_list
      intro a ha b hb
      rw [(hp2 a ha).2.1, (hp2 b hb).2.1]
    · intro a ha b hb
      rw [(hp3 a ha).2.1, (hp2 b hb).2.1]
      omega
  · apply List.pairwise_of_forall_mem_list
    intro a ha b hb
    rw [(hp1 a ha).2.1, (hp1 b hb).2.1]
  · intro a ha b hb
    rcases List.mem_append.mp ha with ha | ha
    · rw [(hp3 a ha).2.1, (hp1 b hb).2.1]
      omega
    · rw [(hp2 a ha).2.1, (hp1 b hb).2.1]
      omega

/-- Unfolding `crlfList` on a head that is not a carriage return. -/
theorem crlfList_cons_ne (c : Char) (cs : List Char) (hc : ¬c = '\r') :
    crlfList (c :: cs) = c :: crlfList cs := by
  rw [crlfList.eq_def]
  simp [hc]

/-- `crlfList` is the identity on texts without carriage returns. -/
theorem crlfList_id : ∀ l : List Char, '\r' ∉ l → crlfList l = l := by
  intro l
  induction l with
  | nil => intro _; rfl
  | cons c cs ih =>
    intro h
    have hc : ¬c = '\r' := fun hc => h (by rw [hc]; exact List.mem_cons_self _ _)
    rw [crlfList_cons_ne c cs hc, ih (fun hm => h (List.mem_cons_of_mem c hm))]

/-- `has3runAux` ignores the run counter on a non-newline head. -/
theorem has3runAux_nonl (c : Char) (hc : ¬c = '\n') (k : Nat) (rest : List Char) :
    has3runAux k (c :: rest) = has3runAux 0 rest := by
  rw [has3runAux, if_neg hc]

/-- Prepending up to two newlines and a non-newline does not create a
newline triple beyond those of the tail. -/
theorem has3run_prepend (m : Nat) (hm : m ≤ 2) (c : Char) (hc : ¬c = '\n') (rest : List Char) :
    has3run (List.replicate m '\n' ++ c :: rest) = has3run rest := by
  have hm3 : m = 0 ∨ m = 1 ∨ m = 2 := by omega
  rcases hm3 with rfl | rfl | rfl
  · rw [List.replicate, List.nil_append, has3run, has3runAux_nonl c hc]
    rfl
  · show has3run ('\n' :: c :: rest) = has3run rest
    rw [has3run, has3runAux, if_pos rfl]
    norm_num
    rw [has3runAux_nonl c hc]
    rfl
  · show has3run ('\n' :: '\n' :: c :: rest) = has3run rest
    rw [has3run, has3runAux, if_pos rfl]
    norm_num
    rw [has3runAux, if_pos rfl]
    norm_num
    rw [has3runAux_nonl c hc]
    rfl

/-- A tail of up to two newlines has no newline triple. -/
theorem has3run_replicate (m : Nat) (hm : m ≤ 2) :
    has3run (List.replicate m '\n') = false := by
  have hm3 : m = 0 ∨ m = 1 ∨ m = 2 := by omega
  rcases hm3 with rfl | rfl | rfl <;> decide

/-- The collapse pass never leaves three consecutive newlines. -/
theorem collapseGo_no3 : ∀ (l : List Char) (k : Nat), has3run (collapseGo k l) = false := by
  intro l
  induction l with
  | nil =>
    intro k
    rw [collapseGo]
    exact has3run_replicate (min k 2) (Nat.min_le_right k 2)
  | cons c cs ih =>
    intro k
    by_cases hc : c = '\n'
    · rw [collapseGo, if_pos hc]
      exact ih (k + 1)
    · rw [collapseGo, if_neg hc, has3run_prepend (min k 2) (Nat.min_le_right k 2) c hc]
      exact ih 0

/-- Counting three consecutive newlines from a pending run of two. -/
theorem has3run_two_pending (cs : List Char) :
    has3run (List.replicate 2 '\n' ++ '\n' :: cs) = true := by
  show has3run ('\n' :: '\n' :: '\n' :: cs) = true
  rw [has3run, has3runAux, if_pos rfl]
  norm_num
  rw [has3runAux, if_pos rfl]
  norm_num
  rw [has3runAux, if_pos rfl]
  norm_num

/-- The collapse pass is the identity when no three consecutive newlines
occur (with `k` pending newlines carried in front). -/
theorem collapseGo_id : ∀ (l : List Char) (k : Nat), k ≤ 2 →
    has3run (List.replicate k '\n' ++ l) = false →
    collapseGo k l = List.replicate k '\n' ++ l := by
  intro l
  induction l with
  | nil =>
    intro k hk _
    rw [collapseGo, Nat.min_eq_left hk, List.append_nil]
  | cons c cs ih =>
    intro k hk hno
    by_cases hc : c = '\n'
    · subst hc
      have hk1 : k ≤ 1 := by
        by_contra hgt
        have hk2 : k = 2 := by omega
        subst hk2
        rw [has3run_two_pending cs] at hno
        exact Bool.true_eq_false.mp hno
      have hrepl : List.replicate (k + 1) '\n' ++ cs = List.replicate k '\n' ++ '\n' :: cs := by
        rw [List.replicate_succ']
        simp
      rw [collapseGo, if_pos rfl, ih (k + 1) (by omega) (by rw [hrepl]; exact hno), hrepl]
    · have hcs : has3run cs = false := by
        rw [has3run_prepend k hk c hc cs] at hno
        exact hno
      rw [collapseGo, if_neg hc, Nat.min_eq_left hk,
        ih 0 (by omega) (by simpa using hcs)]
      simp

/-- A whitespace-only list strips to nothing. -/
theorem strip_nil_of_all_ws (l : List Char) (h : ∀ c ∈ l, pyWS c = true) :
    stripList l = [] := by
  unfold stripList
  rw [List.dropWhile_eq_nil_iff.mpr h]
  rfl

/-- Conversely, a list that strips to nothing is whitespace-only. -/
theorem all_ws_of_strip_nil (l : List Char) (h : stripList l = []) :
    ∀ c ∈ l, pyWS c = true := by
  unfold stripList at h
  have hB : (l.dropWhile pyWS).reverse.dropWhile pyWS = [] := by
    have := congrArg List.reverse h
    simpa using this
  have hA : ∀ c ∈ (l.dropWhile pyWS).reverse, pyWS c = true := List.dropWhile_eq_nil_iff.mp hB
  have hA2 : ∀ c ∈ l.dropWhile pyWS, pyWS c = true := by
    intro c hc
    exact hA c (List.mem_reverse.mpr hc)
  intro c hc
  rw [← List.takeWhile_append_dropWhile (p := pyWS) (l := l)] at hc
  rcases List.mem_append.mp hc with hc | hc
  · exact List.mem_takeWhile_imp hc
  · exact hA2 c hc

/-- Every character of `crlfList l` is a character of `l` or a newline
(length-indexed to follow the two-character recursion). -/
theorem crlf_mem_aux : ∀ (n : Nat) (l : List Char), l.length ≤ n →
    ∀ c ∈ crlfList l, c ∈ l ∨ c = '\n' := by
  intro n
  induction n with
  | zero =>
    intro l hl c hc
    rw [List.length_eq_zero.mp (Nat.le_zero.mp hl)] at hc
    simp [crlfList] at hc
  | succ n ih =>
    intro l hl c hc
    cases l with
    | nil => simp [crlfList] at hc
    | cons a as =>
      by_cases ha : a = '\r'
      · subst ha
        cases as with
        | nil =>
          rw [show crlfList ['\r'] = ['\n'] by rw [crlfList.eq_def]; simp] at hc
          simp at hc
          exact Or.inr hc
        | cons a2 as2 =>
          by_cases ha2 : a2 = '\n'
          · subst ha2
            rw [show crlfList ('\r' :: '\n' :: as2) = '\n' :: crlfList as2 by
              rw [crlfList.eq_def]; simp] at hc
            rcases List.mem_cons.mp hc with hc | hc
            · exact Or.inr hc
            · rcases ih as2 (by simp at hl ⊢; omega) c hc with hin | hnl
              · exact Or.inl (List.mem_cons_of_mem _ (List.mem_cons_of_mem _ hin))
              · exact Or.inr hnl
          · rw [show crlfList ('\r' :: a2 :: as2) = '\n' :: crlfList (a2 :: as2) by
              rw [crlfList.eq_def]; simp [ha2]] at hc
            rcases List.mem_cons.mp hc with hc | hc
            · exact Or.inr hc
            · rcases ih (a2 :: as2) (by simp at hl ⊢; omega) c hc with hin | hnl
              · exact Or.inl (List.mem_cons_of_mem _ hin)
              · exact Or.inr hnl
      · rw [crlfList_cons_ne a as ha] at hc
        rcases List.mem_cons.mp hc with hc | hc
        · exact Or.inl (by rw [hc]; exact List.mem_cons_self a as)
        · rcases ih as (by simp at hl; omega) c hc with hin | hnl
          · exact Or.inl (List.mem_cons_of_mem a hin)
          · exact Or.inr hnl

/-- `crlfList` maps whitespace-only texts to whitespace-only texts. -/
theorem crlf_all_ws (l : List Char) (h : ∀ c ∈ l, pyWS c = true) :
    ∀ c ∈ crlfList l, pyWS c = true := by
  intro c hc
  rcases crlf_mem_aux l.length l le_rfl c hc with hin | hnl
  · exact h c hin
  · rw [hnl]
    rfl

/-- `splitNl` always produces at least one piece. -/
theorem splitNl_ne_nil : ∀ l : List Char, splitNl l ≠ [] := by
  intro l
  cases l with
  | nil => simp [splitNl]
  | cons c cs =>
    rw [splitNl.eq_def]
    rcases h : splitNl cs with _ | ⟨p, ps⟩
    · simp [h]
    · by_cases hc : c = '\n' <;> simp [h, hc]

/-- Every character of a `splitNl` piece is a character of the input. -/
theorem splitNl_mem : ∀ (l : List Char) (p : List Char), p ∈ splitNl l →
    ∀ c ∈ p, c ∈ l := by
  intro l
  induction l with
  | nil =>
    intro p hp c hc
    simp [splitNl] at hp
    rw [hp] at hc
    simp at hc
  | cons d ds ih =>
    intro p hp c hc
    rcases hsp : splitNl ds with _ | ⟨q, qs⟩
    · exact absurd hsp (splitNl_ne_nil ds)
    · by_cases hd : d = '\n'
      · rw [show splitNl (d :: ds) = [] :: q :: qs by
          rw [splitNl.eq_def]; simp [hsp, hd]] at hp
        rcases List.mem_cons.mp hp with hp | hp
        · rw [hp] at hc
          simp at hc
        · exact List.mem_cons_of_mem d (ih p (by rw [hsp]; exact hp) c hc)
      · rw [show splitNl (d :: ds) = (d :: q) :: qs by
          rw [splitNl.eq_def]; simp [hsp, hd]] at hp
        rcases List.mem_cons.mp hp with hp | hp
        · rw [hp] at hc
          rcases List.mem_cons.mp hc with hc | hc
          · rw [hc]
            exact List.mem_cons_self d ds
          · exact List.mem_cons_of_mem d
              (ih q (by rw [hsp]; exact List.mem_cons_self q qs) c hc)
        · exact List.mem_cons_of_mem d
            (ih p (by rw [hsp]; exact List.mem_cons_of_mem q hp) c hc)

/-- A whitespace-only block has no non-empty stripped lines. -/
theorem blockLines_nil_of_strip (block : String) (h : stripList block.data = []) :
    blockLines block = [] := by
  unfold blockLines
  have hws : ∀ c ∈ block.data, pyWS c = true := all_ws_of_strip_nil block.data h
  have hws2 : ∀ c ∈ crlfList block.data, pyWS c = true := crlf_all_ws block.data hws
  have hfilter :
      ((splitNl (crlfList block.data)).map stripList).filter (fun l => decide (l ≠ [])) = [] := by
    rw [List.filter_eq_nil_iff]
    intro a ha
    obtain ⟨p, hp, hps⟩ := List.mem_map.mp ha
    have : stripList p = [] := by
      apply strip_nil_of_all_ws
      intro c hc
      exact hws2 c (splitNl_mem (crlfList block.data) p hp c hc)
    rw [← hps, this]
    simp
  rw [hfilter]
  rfl

/-- When the marker loop of `_parse_block` finds at least one candidate,
the output texts are exactly those candidates. -/
theorem parse_marker_eq (block : String) (p : String)
    (h : markerItems (blockLines block) ≠ []) :
    (_parse_block block p).map (·.text) = markerItems (blockLines block) := by
  unfold _parse_block
  by_cases hs : stripList block.data = []
  · exfalso
    apply h
    rw [blockLines_nil_of_strip block hs]
    rfl
  · rw [if_neg hs]
    show (mkCands p 1 (if markerItems (blockLines block) = [] then sentenceItems (blockLines block)
      else markerItems (blockLines block))).map (·.text) = markerItems (blockLines block)
    rw [if_neg h, mkCands_map_text]

/-!
The claims.
-/

/-- C1: the claim says `extract_all_criteria` always returns a pair of lists
and never raises, with `extract_all_criteria("", "/nonexistent/path")`
returning `([], [])`.  The code cannot deliver this: `criteria_consensus.py`
imports `extract_criteria_heuristic` from `criteria_utils`, which defines no
such attribute, so the import raises before the function can be called; under
the evident intent (the import referring to `extract_criteria_from_text`),
the modelled pipeline does return `([], [])` on the degenerate input. -/
theorem C1_consensus_import_bug :
    consensusImportedName ∉ criteriaUtilsModuleAttrs ∧
    extract_all_criteria_intended "" "" [] [] = ([], []) :=
  ⟨by decide, by decide⟩

set_option maxRecDepth 100000 in
/-- C2: on the worked example text, the heuristic extractor followed by the
consensus merger with empty OCR and LLM candidate lists yields exactly
inclusion ids/texts INC1 "Age >= 18", INC2 "Signed consent" and exclusion
ids/texts EXC1 "Pregnant", EXC2 "Prior therapy with drug X", in order. -/
theorem C2_end_to_end_example :
    ((_merge_lists (extract_criteria_from_text "Inclusion Criteria\n1. Age >= 18\n2. Signed consent\nExclusion Criteria\n1. Pregnant\n2. Prior therapy with drug X").1 [] [] "INC").map
        (fun c => (c.id, c.text)) = [("INC1", "Age >= 18"), ("INC2", "Signed consent")]) ∧
    ((_merge_lists (extract_criteria_from_text "Inclusion Criteria\n1. Age >= 18\n2. Signed consent\nExclusion Criteria\n1. Pregnant\n2. Prior therapy with drug X").2 [] [] "EXC").map
        (fun c => (c.id, c.text)) = [("EXC1", "Pregnant"), ("EXC2", "Prior therapy with drug X")]) :=
  ⟨by decide, by decide⟩

/-- C3: in any merged output, every later accepted item has similarity ratio
strictly below 0.80 with every earlier accepted item (the ratio as the code
computes it, candidate against accepted). -/
theorem C3_dedup_invariant (h o l : List Candidate) (p : String) :
    List.Pairwise (fun x y : Criterion => _similar y.text x.text < (4 : ℚ) / 5)
      (_merge_lists h o l p) := by
  obtain ⟨r3, r2, r1, e1, _, _, _, hpw⟩ := mergeUsed_decomp h o l
  rw [merge_eq_finalize, e1]
  exact (finalizeList_pairwise p 1 ((r3 ++ r2) ++ r1) hpw).imp
    (fun hab => (simGE_false_iff _ _).mp hab)

set_option maxRecDepth 100000 in
/-- C4 counterexample: the claim says that whenever an llm item and a
heuristic item have ratio at least 0.80, the surviving merged entry for that
criterion has source llm and weight 3.  With llm items "0123456789" and
"2345678901" and heuristic item "4567890123": the second llm item is dropped
as a duplicate of the first (ratio 0.8), the heuristic item is 0.8-similar
to the dropped llm item yet only 0.6-similar to the surviving one, so it is
accepted — the surviving entry for that criterion has source heuristic,
weight 1, and no llm-sourced entry is within 0.80 of it. -/
theorem C4_priority_counterexample :
    (4 : ℚ) / 5 ≤ _similar "4567890123" "2345678901" ∧
    _merge_lists [⟨"H1", "4567890123", "text"⟩] []
        [⟨"L1", "0123456789", "text"⟩, ⟨"L2", "2345678901", "text"⟩] "INC" =
      [⟨"INC1", "0123456789", "text", "llm", 3⟩, ⟨"INC2", "4567890123", "text", "heuristic", 1⟩] ∧
    ∀ e ∈ _merge_lists [⟨"H1", "4567890123", "text"⟩] []
        [⟨"L1", "0123456789", "text"⟩, ⟨"L2", "2345678901", "text"⟩] "INC",
      e.source = "llm" → _similar e.text "4567890123" < (4 : ℚ) / 5 := by
  refine ⟨(simGE_iff _ _).mp (by decide), by decide, ?_⟩
  have hb : ∀ e ∈ _merge_lists [⟨"H1", "4567890123", "text"⟩] []
      [⟨"L1", "0123456789", "text"⟩, ⟨"L2", "2345678901", "text"⟩] "INC",
      e.source = "llm" → simGE e.text "4567890123" = false := by decide
  exact fun e he hs => (simGE_false_iff _ _).mp (hb e he hs)

/-- C4 amended: if an llm item is itself accepted into the merged output,
then it carries weight 3, and any heuristic input item whose stripped text
is 0.80-similar to it does not appear as a separate heuristic-sourced entry
(the heuristic duplicate is dropped, the llm entry survives). -/
theorem C4_priority_amended (h o l : List Candidate) (p : String) (e : Criterion)
    (he : e ∈ _merge_lists h o l p) (hs : e.source = "llm") :
    e.weight = 3 ∧
    ∀ c ∈ h, simGE (pyStripS c.text) e.text = true →
      ∀ e2 ∈ _merge_lists h o l p, e2.source ≠ "heuristic" ∨ e2.text ≠ pyStripS c.text := by
  obtain ⟨r3, r2, r1, e1, hp3, hp2, hp1, _⟩ := mergeUsed_decomp h o l
  rw [merge_eq_finalize, e1] at he
  obtain ⟨u, hu, hte, hse, hwe⟩ := finalizeList_mem p 1 _ e he
  have husrc : u.source = "llm" := by rw [← hse, hs]
  have hu3 : u ∈ r3 := by
    rcases List.mem_append.mp hu with hu | hu
    · rcases List.mem_append.mp hu with hu | hu
      · exact hu
      · exact absurd ((hp2 u hu).1 ▸ husrc) (by decide)
    · exact absurd ((hp1 u hu).1 ▸ husrc) (by decide)
  refine ⟨by rw [hwe, (hp3 u hu3).2.1], ?_⟩
  intro c hc hsim e2 he2
  by_contra hcon
  push_neg at hcon
  obtain ⟨hsrc2, htxt2⟩ := hcon
  rw [merge_eq_finalize, e1] at he2
  obtain ⟨u2, hu2, hte2, hse2, _⟩ := finalizeList_mem p 1 _ e2 he2
  have husrc2 : u2.source = "heuristic" := by rw [← hse2, hsrc2]
  have hu2r1 : u2 ∈ r1 := by
    rcases List.mem_append.mp hu2 with hu2 | hu2
    · rcases List.mem_append.mp hu2 with hu2 | hu2
      · exact absurd ((hp3 u2 hu2).1 ▸ husrc2) (by decide)
      · exact absurd ((hp2 u2 hu2).1 ▸ husrc2) (by decide)
    · exact hu2
  have hchk : simGE u2.text u.text = false :=
    (hp1 u2 hu2r1).2.2.2.2 u (List.mem_append_left r2 hu3)
  have hfalse : simGE (pyStripS c.text) e.text = false := by
    rw [← htxt2, hte2, hte]
    exact hchk
  rw [hsim] at hfalse
  exact Bool.true_eq_false.mp hfalse

set_option maxRecDepth 100000 in
/-- C4 amended witness: a concrete instance with an accepted llm item
"abcdefgh" and a 1.0-similar heuristic item "ABCDEFGH"; the merged llm entry
is not a heuristic-sourced copy of the heuristic item's text. -/
theorem C4_priority_amended_witness :
    (⟨"INC1", "abcdefgh", "text", "llm", 3⟩ : Criterion).source ≠ "heuristic" ∨
    (⟨"INC1", "abcdefgh", "text", "llm", 3⟩ : Criterion).text ≠
      pyStripS (Candidate.mk "y" "ABCDEFGH" "text").text :=
  (C4_priority_amended [⟨"y", "ABCDEFGH", "text"⟩] [] [⟨"x", "abcdefgh", "text"⟩] "INC"
      ⟨"INC1", "abcdefgh", "text", "llm", 3⟩ (by decide) rfl).2
    ⟨"y", "ABCDEFGH", "text"⟩ (by decide) (by decide)
    ⟨"INC1", "abcdefgh", "text", "llm", 3⟩ (by decide)

/-- C5: every item the merger outputs has non-empty, non-whitespace-only
text, and the output ids are exactly `{prefix}1 .. {prefix}n` in list
order. -/
theorem C5_merge_output_invariants (h o l : List Candidate) (p : String) :
    (∀ c ∈ _merge_lists h o l p, c.text ≠ "" ∧ ∃ ch ∈ c.text.data, pyWS ch = false) ∧
    (_merge_lists h o l p).map (·.id) =
      (natsFrom 1 (_merge_lists h o l p).length).map (fun n => p ++ toString n) := by
  obtain ⟨r3, r2, r1, e1, hp3, hp2, hp1, _⟩ := mergeUsed_decomp h o l
  constructor
  · intro c hc
    rw [merge_eq_finalize, e1] at hc
    obtain ⟨u, hu, hte, _, _⟩ := finalizeList_mem p 1 _ c hc
    have hprops : u.text ≠ "" ∧ ∃ s : String, u.text = pyStripS s := by
      rcases List.mem_append.mp hu with hu | hu
      · rcases List.mem_append.mp hu with hu | hu
        · obtain ⟨_, _, ⟨c0, _, h0⟩, hne⟩ := hp3 u hu
          exact ⟨hne, c0.text, h0⟩
        · obtain ⟨_, _, ⟨c0, _, h0⟩, hne, _⟩ := hp2 u hu
          exact ⟨hne, c0.text, h0⟩
      · obtain ⟨_, _, ⟨c0, _, h0⟩, hne, _⟩ := hp1 u hu
        exact ⟨hne, c0.text, h0⟩
    obtain ⟨hne, s, hes⟩ := hprops
    refine ⟨by rw [hte]; exact hne, ?_⟩
    have hnil : stripList s.data ≠ [] := by
      intro hnil
      apply hne
      rw [hes]
      unfold pyStripS
      rw [hnil]
    obtain ⟨ch, hch, hws⟩ := stripList_exists_nonws s.data hnil
    rw [hte, hes]
    exact ⟨ch, hch, hws⟩
  · rw [merge_eq_finalize]
    rw [finalizeList_length]
    rw [finalizeList_map_id]

set_option maxRecDepth 100000 in
/-- C5 witness: the invariants instantiated on a one-item heuristic input
whose text needs stripping. -/
theorem C5_merge_output_invariants_witness :
    (⟨"INC1", "hello world", "text", "heuristic", 1⟩ : Criterion).text ≠ "" ∧
    ∃ ch ∈ (⟨"INC1", "hello world", "text", "heuristic", 1⟩ : Criterion).text.data,
      pyWS ch = false :=
  (C5_merge_output_invariants [⟨"h1", " hello world ", "text"⟩] [] [] "INC").1
    ⟨"INC1", "hello world", "text", "heuristic", 1⟩ (by decide)

/-- C6 counterexample: the claim says normalization merges a line break that
splits a sentence (newline not preceded by terminal punctuation, followed by
a lowercase letter) into a space.  The code's normalization (CRLF conversion
and blank-line collapsing only) leaves `"Protocol\ntext continues"`
unchanged instead of producing `"Protocol text continues"`. -/
theorem C6_normalization_counterexample :
    normalizeText "Protocol\ntext continues".data = "Protocol\ntext continues".data ∧
    "Protocol\ntext continues".data ≠ "Protocol text continues".data :=
  ⟨by decide, by decide⟩

/-- C6 amended: before segmentation the code only normalizes line endings
and collapses runs of three or more newlines to exactly two; on text free of
carriage returns and of newline triples it is the identity (mid-sentence
line breaks are preserved), and its output never contains three consecutive
newlines. -/
theorem C6_normalization_amended :
    (∀ l : List Char, '\r' ∉ l → has3run l = false → normalizeText l = l) ∧
    (∀ l : List Char, has3run (normalizeText l) = false) := by
  constructor
  · intro l hr h3
    unfold normalizeText collapseNl
    rw [crlfList_id l hr]
    have hid := collapseGo_id l 0 (by omega) (by simpa using h3)
    simpa using hid
  · intro l
    exact collapseGo_no3 (crlfList l) 0

/-- C6 amended witness: a mid-sentence line break survives normalization. -/
theorem C6_normalization_amended_witness :
    normalizeText "ab\ncd".data = "ab\ncd".data :=
  C6_normalization_amended.1 "ab\ncd".data (by decide) (by decide)

set_option maxRecDepth 100000 in
/-- C7 counterexample: the claim says a located span is truncated at the
first trailing generic section heading even when the opposite-type heading
is absent.  On a text with an inclusion heading, no exclusion heading, and a
trailing ALL-CAPS heading, the span runs to end-of-text: the ALL-CAPS
pattern matches inside the returned block (at index 26) instead of bounding
it. -/
theorem C7_truncation_counterexample :
    searchInc "Inclusion Criteria\n1. Age over eighteen years\nSTUDY PROCEDURES OVERVIEW\nNot part of criteria".data = some (0, 18) ∧
    searchExc "Inclusion Criteria\n1. Age over eighteen years\nSTUDY PROCEDURES OVERVIEW\nNot part of criteria".data = none ∧
    locateBlocks "Inclusion Criteria\n1. Age over eighteen years\nSTUDY PROCEDURES OVERVIEW\nNot part of criteria".data =
      ("1. Age over eighteen years\nSTUDY PROCEDURES OVERVIEW\nNot part of criteria".data, []) ∧
    searchStart p2Match "1. Age over eighteen years\nSTUDY PROCEDURES OVERVIEW\nNot part of criteria".data = some 26 :=
  ⟨by decide, by decide, by decide, by decide⟩

/-- C7 amended: when exactly one of the two headings is present, the located
span is the whole stripped text after the heading's line, to end-of-text;
the generic-section trimming runs only in the branch where both headings are
present. -/
theorem C7_single_heading_amended (t : List Char) (s e : Nat) :
    (searchInc t = some (s, e) → searchExc t = none →
      locateBlocks t = (stripList (t.drop (lineEnd t e)), [])) ∧
    (searchExc t = some (s, e) → searchInc t = none →
      locateBlocks t = ([], stripList (t.drop (lineEnd t e)))) := by
  constructor
  · intro h1 h2
    unfold locateBlocks
    rw [h1, h2]
  · intro h1 h2
    unfold locateBlocks
    rw [h1, h2]

/-- C7 amended witness: the inclusion-only case on a concrete text. -/
theorem C7_single_heading_amended_witness :
    locateBlocks "inclusion criteria\n1. adult patients".data =
      (stripList ("inclusion criteria\n1. adult patients".data.drop
        (lineEnd "inclusion criteria\n1. adult patients".data 18)), []) :=
  (C7_single_heading_amended "inclusion criteria\n1. adult patients".data 0 18).1
    (by decide) (by decide)

set_option maxRecDepth 100000 in
/-- C8 counterexample: the claim says a combined eligibility heading's body
is bisected by line count into inclusion and exclusion halves.  On a body of
four numbered lines containing no occurrence of the word `exclusion`, the
code assigns all four candidates to inclusion and none to exclusion instead
of splitting two and two. -/
theorem C8_eligibility_counterexample :
    extract_criteria_from_text "Eligibility Criteria\n1. adult patients enrolled\n2. signed informed consent\n3. documented diagnosis\n4. adequate organ function" =
      ([⟨"INC1", "adult patients enrolled", "text"⟩, ⟨"INC2", "signed informed consent", "text"⟩,
        ⟨"INC3", "documented diagnosis", "text"⟩, ⟨"INC4", "adequate organ function", "text"⟩],
       []) := by
  decide

/-- C8 amended: with neither inclusion nor exclusion heading and a combined
eligibility heading present, the body after the heading's line is split at
the start of the line containing the first occurrence of the word
`exclusion` — first part inclusion, rest exclusion — and is assigned
entirely to inclusion when that word does not occur; no line-count bisection
happens in this branch (bisection only occurs in the later marker-run
fallback). -/
theorem C8_eligibility_amended (t : List Char) (s e : Nat)
    (h1 : searchInc t = none) (h2 : searchExc t = none)
    (h3 : searchElig t = some (s, e)) :
    (searchExclWord (stripList (t.drop (lineEnd t e))) = none →
      locateBlocks t = (stripList (t.drop (lineEnd t e)), [])) ∧
    (∀ ps pe, searchExclWord (stripList (t.drop (lineEnd t e))) = some (ps, pe) →
      locateBlocks t =
        (stripList ((stripList (t.drop (lineEnd t e))).take
            (lineStart (stripList (t.drop (lineEnd t e))) ps)),
         stripList ((stripList (t.drop (lineEnd t e))).drop
            (lineStart (stripList (t.drop (lineEnd t e))) ps)))) := by
  constructor
  · intro h4
    simp only [locateBlocks, h1, h2, h3, h4]
  · intro ps pe h4
    simp only [locateBlocks, h1, h2, h3, h4]

/-- C8 amended witness: the no-exclusion-word case on a concrete text. -/
theorem C8_eligibility_amended_witness :
    locateBlocks "Eligible criteria\nadults only cohort".data =
      (stripList ("Eligible criteria\nadults only cohort".data.drop
        (lineEnd "Eligible criteria\nadults only cohort".data 17)), []) :=
  (C8_eligibility_amended "Eligible criteria\nadults only cohort".data 0 17
    (by decide) (by decide) (by decide)).1 (by decide)

/-- C9 counterexample: the claim says the block parser drops
table-of-contents lines (dot leader and trailing page number) and
administrative noise lines (randomization, visit, ...) before collecting
candidates.  The parser has no such filter: a numbered dot-leader
randomization line comes back as a candidate criterion. -/
theorem C9_noise_counterexample :
    _parse_block "3. Randomization visit schedule ........ 12" "INC" =
      [⟨"INC1", "Randomization visit schedule ........ 12", "text"⟩] := by
  decide

/-- C9 amended: the block parser performs no table-of-contents or
administrative-noise filtering: every line carrying a bullet or numbering
marker whose marker-stripped text is longer than five characters and is not
a literal criteria heading contributes a candidate with that text,
regardless of its content. -/
theorem C9_no_noise_filter_amended (block : String) (p : String) (line : String) (c : String)
    (hline : line ∈ blockLines block) (hitem : lineItem line = some c) :
    ∃ item ∈ _parse_block block p, item.text = c := by
  have hmem : c ∈ markerItems (blockLines block) :=
    List.mem_filterMap.mpr ⟨line, hline, hitem⟩
  have hne : markerItems (blockLines block) ≠ [] := List.ne_nil_of_mem hmem
  have heq := parse_marker_eq block p hne
  rw [← heq] at hmem
  obtain ⟨item, hit, htx⟩ := List.mem_map.mp hmem
  exact ⟨item, hit, htx⟩

/-- C9 amended witness: a noise line with dot leader and page number is
emitted as a candidate. -/
theorem C9_no_noise_filter_amended_witness :
    ∃ item ∈ _parse_block "2. Screening randomization visit ...... 12" "INC",
      item.text = "Screening randomization visit ...... 12" :=
  C9_no_noise_filter_amended "2. Screening randomization visit ...... 12" "INC"
    "2. Screening randomization visit ...... 12" "Screening randomization visit ...... 12"
    (by decide) (by decide)

/-- C10: when at least one line of a block yields a marker candidate, the
parser's output texts are exactly the marker-stripped texts of the
marker-bearing lines, in order — non-marker lines (such as wrapped
continuations) are discarded entirely, and the sentence-splitting fallback
does not run. -/
theorem C10_marker_lines_only (block : String) (p : String)
    (h : markerItems (blockLines block) ≠ []) :
    (_parse_block block p).map (·.text) = markerItems (blockLines block) :=
  parse_marker_eq block p h

/-- C10 witness: a block with one numbered line and one long continuation
line yields only the numbered line's text. -/
theorem C10_marker_lines_only_witness :
    (_parse_block "1. Age over eighteen years\nthis wrapped continuation line is quite long" "INC").map
      (·.text) = ["Age over eighteen years"] :=
  (C10_marker_lines_only "1. Age over eighteen years\nthis wrapped continuation line is quite long"
    "INC" (by decide)).trans (by decide)
